import Mathlib

/-!
Shallow embedding of `rd::IViewableMap` (src/rd-cpp/src/rd_core_cpp/src/main/reactive/base/
IViewableMap.h) and proofs about its `Event` model, `advise_add_remove` decomposition and
`view` subscription bookkeeping.

Modelling conventions:
* C++ `K const *` / `V const *` borrowed pointers inside an `Event` are modelled by plain
  values; a `nullptr` result of an accessor is modelled by `Option.none`.
* A `Lifetime` is modelled by a numeric identifier.  `LifetimeDefinition(lifetime)` (creating
  a lifetime nested under `lifetime`) is modelled by a `ScopeInfo` recording a fresh numeric
  id together with its parent lifetime.
* Handlers are user code: they are modelled as state transformers over an arbitrary user
  state `σ`, so "the handler is invoked with arguments a" is visible as one application of
  the handler function to those arguments.
* The side effects of the `view` bookkeeping itself (erasing a table entry, terminating a
  `LifetimeDefinition`) are recorded, in execution order, in an effect trace carried by the
  state, so that ordering claims about them can be stated.
* `RD_ASSERT_MSG(cond, msg)` (fatal, non-recoverable) is modelled by returning
  `Except.error msg` when `cond` is false.
* The outer table `lifetimes : unordered_map<Lifetime, ordered_map<K const*, LifetimeDefinition>>`
  is keyed by the subscriber lifetime; distinct subscriber lifetimes never interact, so the
  state models the inner `ordered_map` of one subscriber lifetime (held in `subscriber`).
  `lifetimes[lifetime]` default-constructs an empty inner map, which is the initial state.
  The `tsl::ordered_map` keeps insertion order, hence the association-list model where
  `emplace` appends at the end.
-/

namespace IViewableMap

/-- The `Event` variant of `IViewableMap`: an addition, update or removal of a map element
(classes `Event::Add`, `Event::Update`, `Event::Remove` and the `variant` over them). -/
inductive Event (K V : Type) where
  | add (key : K) (new_value : V)
  | update (key : K) (old_value : V) (new_value : V)
  | remove (key : K) (old_value : V)
deriving DecidableEq

/-- Accessor `Event::get_key`: every variant returns its key. -/
def Event.get_key {K V : Type} : Event K V → K
  | .add k _ => k
  | .update k _ _ => k
  | .remove k _ => k

/-- Accessor `Event::get_old_value`.  The `Add` visitor returns `nullptr` (modelled `none`), the
`Update` visitor returns `e.old_value`.  In the source the `Remove` visitor contains only the
expression statement `e.old_value;` with no `return`, so no value is produced for the
`Remove` variant; this is modelled by `none`. -/
def Event.get_old_value {K V : Type} : Event K V → Option V
  | .add _ _ => none
  | .update _ o _ => some o
  | .remove _ _ => none

/-- Accessor `Event::get_new_value`: `new_value` for `Add` and `Update`, `nullptr` (modelled `none`)
for `Remove`. -/
def Event.get_new_value {K V : Type} : Event K V → Option V
  | .add _ n => some n
  | .update _ _ n => some n
  | .remove _ _ => none

/-- The `AddRemove` kind passed to `advise_add_remove` handlers. -/
inductive AddRemove where
  | ADD
  | REMOVE
deriving DecidableEq

/-- The body of `advise_add_remove` (IViewableMap.h lines 186-201): the wrapped handler
receives each `Event` and calls the user handler once for `Add` (kind `ADD`, new value),
twice for `Update` (kind `REMOVE` with the old value, then kind `ADD` with the new value),
once for `Remove` (kind `REMOVE`, old value).  The user handler is modelled as a state
transformer; sequencing of its two calls for `Update` is function composition. -/
def adviseAddRemoveStep {K V σ : Type} (handler : AddRemove → K → V → σ → σ)
    (e : Event K V) (s : σ) : σ :=
  match e with
  | .add k n => handler AddRemove.ADD k n s
  | .update k o n => handler AddRemove.ADD k n (handler AddRemove.REMOVE k o s)
  | .remove k o => handler AddRemove.REMOVE k o s

/-- A handler that records each call it receives, in call order. -/
def recordAR {K V : Type} : AddRemove → K → V → List (AddRemove × K × V) →
    List (AddRemove × K × V) :=
  fun kind k v tr => tr ++ [(kind, k, v)]

/-- One `(kind, key, value)` notification handed by `advise_add_remove` to the `view`
bookkeeping handler. -/
abbrev Note (K V : Type) := AddRemove × K × V

/-- Model of a `LifetimeDefinition(lifetime)`: a lifetime with a fresh numeric `id`, nested
under the subscriber lifetime `parent`. -/
structure ScopeInfo where
  id : Nat
  parent : Nat
deriving DecidableEq

/-- A recorded side effect of the `view` bookkeeping code itself: erasing the table entry of
a key (`lifetimes.at(lifetime).erase(key)`), or terminating a nested lifetime
(`def.terminate()`). -/
inductive CoreAction (K : Type) where
  | tableErase (key : K)
  | terminateScope (scope : ScopeInfo)
deriving DecidableEq

/-- The state of one subscriber lifetime's `view` bookkeeping: the subscriber lifetime
itself, the inner `ordered_map<K const*, LifetimeDefinition>` of `lifetimes` for that
subscriber (insertion-ordered association list), the next fresh lifetime id, and the trace
of bookkeeping side effects performed so far, in order. -/
structure ViewState (K : Type) where
  subscriber : Nat
  table : List (K × ScopeInfo)
  nextId : Nat
  trace : List (CoreAction K)
deriving DecidableEq

/-- Operation `ordered_map::count(key) / at(key)` on the association-list model: the scope stored for
`k`, if any. -/
def lookupKey {K : Type} [DecidableEq K] : List (K × ScopeInfo) → K → Option ScopeInfo
  | [], _ => none
  | (k', s) :: rest, k => if k' = k then some s else lookupKey rest k

/-- Operation `ordered_map::erase(key)`: removes the entry for `k` (the first one, in insertion
order; a real map holds at most one). -/
def eraseKey {K : Type} [DecidableEq K] : List (K × ScopeInfo) → K → List (K × ScopeInfo)
  | [], _ => []
  | (k', s) :: rest, k => if k' = k then rest else (k', s) :: eraseKey rest k

/-- Operation `ordered_map::emplace(&key, def)`: appends the entry if the key is absent and reports
whether insertion happened (`pair.second` / `inserted`). -/
def emplace {K : Type} [DecidableEq K] (t : List (K × ScopeInfo)) (k : K) (s : ScopeInfo) :
    List (K × ScopeInfo) × Bool :=
  if (lookupKey t k).isSome then (t, false) else (t ++ [(k, s)], true)

/-- The lambda installed by `view(lifetime, handler)` (IViewableMap.h lines 151-177),
processing one `(kind, key, value)` notification.

`ADD` (lines 154-165): if `lifetimes[lifetime].count(key) == 0`, a `LifetimeDefinition`
nested under the subscriber lifetime is created and `emplace`d, `RD_ASSERT_MSG(inserted, …)`
checks the insertion (modelled by `Except.error` when it failed), and the handler is invoked
once with the nested lifetime and the entry; when the key is already tracked nothing
happens.

`REMOVE` (lines 167-174): `RD_ASSERT_MSG(count(key) > 0, …)` demands a tracked entry
(modelled by `Except.error` when absent); then the definition is moved out, the table entry
is erased, and only then is the moved definition terminated — the effect trace records this
order. -/
def viewHandlerStep {K V σ : Type} [DecidableEq K]
    (handler : ScopeInfo → K × V → σ → σ) (vs : ViewState K) (us : σ) (n : Note K V) :
    Except String (ViewState K × σ) :=
  match n with
  | (AddRemove.ADD, key, value) =>
      if (lookupKey vs.table key).isSome then
        Except.ok (vs, us)
      else
        let child : ScopeInfo := { id := vs.nextId, parent := vs.subscriber }
        let pair := emplace vs.table key child
        if pair.2 then
          Except.ok ({ vs with table := pair.1, nextId := vs.nextId + 1 },
                     handler child (key, value) us)
        else
          Except.error "lifetime definition already exists in viewable map by key"
  | (AddRemove.REMOVE, key, _value) =>
      match lookupKey vs.table key with
      | some scope =>
          Except.ok ({ vs with
                        table := eraseKey vs.table key,
                        trace := vs.trace ++
                          [CoreAction.tableErase key, CoreAction.terminateScope scope] },
                     us)
      | none =>
          Except.error "attempting to remove non-existing lifetime in viewable map by key"

/-- The unpacked `view` overload (IViewableMap.h lines 214-218): forwards to the pair-shaped
`view` with a lambda that unpacks the entry into separate key and value arguments. -/
def viewUnpackedStep {K V σ : Type} [DecidableEq K]
    (handler : ScopeInfo → K → V → σ → σ) (vs : ViewState K) (us : σ) (n : Note K V) :
    Except String (ViewState K × σ) :=
  viewHandlerStep (fun lf entry => handler lf entry.1 entry.2) vs us n

/-- Delivery of a whole notification sequence to a `view` subscription, stopping at the
first failed assertion. -/
def processNotes {K V σ : Type} [DecidableEq K]
    (handler : ScopeInfo → K × V → σ → σ) :
    ViewState K → σ → List (Note K V) → Except String (ViewState K × σ)
  | vs, us, [] => Except.ok (vs, us)
  | vs, us, n :: rest =>
      match viewHandlerStep handler vs us n with
      | Except.ok (vs', us') => processNotes handler vs' us' rest
      | Except.error msg => Except.error msg

/-- A pair-shaped `view` handler that records each call it receives, in call order. -/
def recordPair {K V : Type} : ScopeInfo → K × V → List (ScopeInfo × K × V) →
    List (ScopeInfo × K × V) :=
  fun s kv calls => calls ++ [(s, kv.1, kv.2)]

/-- The state of a fresh `view` subscription under subscriber lifetime `L`:
`lifetimes[L]` is default-constructed empty, no effects have happened, lifetime ids start
at `0`. -/
def initViewState (K : Type) (L : Nat) : ViewState K :=
  { subscriber := L, table := [], nextId := 0, trace := [] }

/-! Specification helpers: the per-key entry state machine over a notification sequence, and
selectors over recorded calls and effects, used only to state properties. -/

/-- The per-key entry state machine: starting from the set `present` of currently present
keys, an `ADD` is only legal for an absent key and a `REMOVE` only for a present key (no two
`Add`s without an intervening `Remove`, no `Remove` without a prior `Add`). -/
def wfNotes {K V : Type} [DecidableEq K] : List K → List (Note K V) → Bool
  | _, [] => true
  | present, (AddRemove.ADD, k, _) :: rest =>
      !(decide (k ∈ present)) && wfNotes (k :: present) rest
  | present, (AddRemove.REMOVE, k, _) :: rest =>
      decide (k ∈ present) && wfNotes (present.erase k) rest

/-- The set of keys present after a notification sequence, as dictated by the per-key state
machine. -/
def presentAfter {K V : Type} [DecidableEq K] : List K → List (Note K V) → List K
  | present, [] => present
  | present, (AddRemove.ADD, k, _) :: rest => presentAfter (k :: present) rest
  | present, (AddRemove.REMOVE, k, _) :: rest => presentAfter (present.erase k) rest

/-- The handler calls a `view` subscription of subscriber `L` is expected to make on a
notification sequence when lifetime ids are handed out from `n0`: one call per `ADD`, with a
fresh sequentially-numbered lifetime nested under `L`, carrying that `ADD`'s key and value;
no call for a `REMOVE`. -/
def expectedCalls {K V : Type} (L : Nat) : Nat → List (Note K V) →
    List (ScopeInfo × K × V)
  | _, [] => []
  | n0, (AddRemove.ADD, k, v) :: rest =>
      ({ id := n0, parent := L }, k, v) :: expectedCalls L (n0 + 1) rest
  | n0, (AddRemove.REMOVE, _, _) :: rest => expectedCalls L n0 rest

/-- The nested lifetimes passed to the handler, in call order. -/
def handlerScopes {K V : Type} (calls : List (ScopeInfo × K × V)) : List ScopeInfo :=
  calls.map Prod.fst

/-- The nested lifetimes currently stored in a subscriber's table. -/
def tableScopes {K : Type} (t : List (K × ScopeInfo)) : List ScopeInfo :=
  t.map Prod.snd

/-- How many times a given nested lifetime has been terminated, according to the effect
trace. -/
def termCount {K : Type} [DecidableEq K] (s : ScopeInfo) (tr : List (CoreAction K)) : Nat :=
  (tr.filter (fun a => decide (a = CoreAction.terminateScope s))).length

/-- Modelled from the spec: the contract of the unpacked `view` overload
(`view(scope, handler: (scope, key, value) -> ())`), stated directly — "same contract" as
the pair-shaped `view`, with the handler receiving the nested lifetime, the key and the
value as separate arguments instead of a packed entry.  Used only to compare the source's
thin-adapter overload against the spec's description of it. -/
def viewUnpackedDirect {K V σ : Type} [DecidableEq K]
    (handler : ScopeInfo → K → V → σ → σ) (vs : ViewState K) (us : σ) (n : Note K V) :
    Except String (ViewState K × σ) :=
  match n with
  | (AddRemove.ADD, key, value) =>
      if (lookupKey vs.table key).isSome then
        Except.ok (vs, us)
      else
        let child : ScopeInfo := { id := vs.nextId, parent := vs.subscriber }
        let pair := emplace vs.table key child
        if pair.2 then
          Except.ok ({ vs with table := pair.1, nextId := vs.nextId + 1 },
                     handler child key value us)
        else
          Except.error "lifetime definition already exists in viewable map by key"
  | (AddRemove.REMOVE, key, _value) =>
      match lookupKey vs.table key with
      | some scope =>
          Except.ok ({ vs with
                        table := eraseKey vs.table key,
                        trace := vs.trace ++
                          [CoreAction.tableErase key, CoreAction.terminateScope scope] },
                     us)
      | none =>
          Except.error "attempting to remove non-existing lifetime in viewable map by key"

/-- The inductive invariant tying a `view` subscription's state and recorded handler calls
to the ghost set `present` of keys the per-key state machine considers present: the table
is a function on keys mirroring `present`, stored scopes are pairwise distinct, were each
passed to the handler exactly once, carry fresh ids below `nextId` and are nested under the
subscriber; and a handler-created scope has been terminated exactly once if it has left the
table and never otherwise. -/
structure Inv {K V : Type} [DecidableEq K] (vs : ViewState K)
    (calls : List (ScopeInfo × K × V)) (present : List K) : Prop where
  pres_nodup : present.Nodup
  keys_nodup : (vs.table.map Prod.fst).Nodup
  keys_iff : ∀ k, (lookupKey vs.table k).isSome = true ↔ k ∈ present
  tscopes_nodup : (tableScopes vs.table).Nodup
  tscopes_sub : ∀ s, s ∈ tableScopes vs.table → s ∈ handlerScopes calls
  hscopes_nodup : (handlerScopes calls).Nodup
  hscopes_lt : ∀ s, s ∈ handlerScopes calls → s.id < vs.nextId
  hscopes_parent : ∀ s, s ∈ handlerScopes calls → s.parent = vs.subscriber
  term_spec : ∀ s, termCount s vs.trace =
      if s ∈ handlerScopes calls ∧ s ∉ tableScopes vs.table then 1 else 0

lemma lookupKey_isSome_iff {K : Type} [DecidableEq K] (t : List (K × ScopeInfo)) (k : K) :
    (lookupKey t k).isSome = true ↔ k ∈ t.map Prod.fst := by
  induction t with
  | nil => simp [lookupKey]
  | cons p rest ih =>
      obtain ⟨k', s⟩ := p
      by_cases h : k' = k
      · subst h
        simp [lookupKey]
      · simp only [lookupKey, if_neg h, List.map_cons, List.mem_cons, ih]
        constructor
        · exact fun hm => Or.inr hm
        · rintro (hm | hm)
          · exact absurd hm.symm h
          · exact hm

lemma lookupKey_eq_none_iff {K : Type} [DecidableEq K] (t : List (K × ScopeInfo)) (k : K) :
    lookupKey t k = none ↔ ¬ k ∈ t.map Prod.fst := by
  rw [← lookupKey_isSome_iff t k]
  cases lookupKey t k <;> simp

lemma lookupKey_append_of_none {K : Type} [DecidableEq K]
    (t1 t2 : List (K × ScopeInfo)) (k : K) (h : lookupKey t1 k = none) :
    lookupKey (t1 ++ t2) k = lookupKey t2 k := by
  induction t1 with
  | nil => simp
  | cons p rest ih =>
      obtain ⟨k', s⟩ := p
      by_cases hk : k' = k
      · simp [lookupKey, hk] at h
      · simp only [lookupKey, if_neg hk] at h ⊢
        exact ih h

lemma lookupKey_single_self {K : Type} [DecidableEq K] (k : K) (c : ScopeInfo) :
    lookupKey [(k, c)] k = some c := by
  simp [lookupKey]

lemma lookupKey_single_ne {K : Type} [DecidableEq K] (k k' : K) (c : ScopeInfo)
    (h : ¬ k' = k) : lookupKey [(k, c)] k' = none := by
  have hk : ¬ k = k' := fun hk => h hk.symm
  simp [lookupKey, hk]

lemma eraseKey_decomp {K : Type} [DecidableEq K] (t : List (K × ScopeInfo)) (k : K)
    (s : ScopeInfo) (h : lookupKey t k = some s) :
    ∃ t1 t2, t = t1 ++ (k, s) :: t2 ∧ (∀ p ∈ t1, ¬ Prod.fst p = k) ∧
      eraseKey t k = t1 ++ t2 := by
  induction t with
  | nil => simp [lookupKey] at h
  | cons p rest ih =>
      obtain ⟨k', s'⟩ := p
      by_cases hk : k' = k
      · subst hk
        simp [lookupKey] at h
        subst h
        exact ⟨[], rest, by simp, by simp, by simp [eraseKey]⟩
      · simp only [lookupKey, if_neg hk] at h
        obtain ⟨t1, t2, ht, hne, he⟩ := ih h
        refine ⟨(k', s') :: t1, t2, by simp [ht], ?_, by simp [eraseKey, hk, he]⟩
        intro p hp
        rcases List.mem_cons.mp hp with hp | hp
        · subst hp
          exact hk
        · exact hne p hp

lemma lookupKey_eraseKey_ne {K : Type} [DecidableEq K] (t : List (K × ScopeInfo))
    (k k' : K) (h : ¬ k' = k) : lookupKey (eraseKey t k) k' = lookupKey t k' := by
  induction t with
  | nil => simp [eraseKey]
  | cons p rest ih =>
      obtain ⟨a, b⟩ := p
      by_cases ha : a = k
      · have hk2 : ¬ k = k' := fun hc => h hc.symm
        simp [eraseKey, ha, lookupKey, hk2]
      · by_cases ha' : a = k'
        · subst ha'
          simp [eraseKey, ha, lookupKey]
        · simp [eraseKey, ha, lookupKey, ha', ih]

lemma lookupKey_eraseKey_self {K : Type} [DecidableEq K] (t : List (K × ScopeInfo))
    (k : K) (s : ScopeInfo) (h : lookupKey t k = some s)
    (hnd : (t.map Prod.fst).Nodup) : lookupKey (eraseKey t k) k = none := by
  obtain ⟨t1, t2, ht, hne, he⟩ := eraseKey_decomp t k s h
  subst ht
  rw [he, lookupKey_eq_none_iff]
  simp only [List.map_append, List.map_cons, List.nodup_append] at hnd ⊢
  intro hk
  simp only [List.mem_append] at hk
  rcases hk with hk | hk
  · obtain ⟨p, hp, hpk⟩ := List.mem_map.mp hk
    exact hne p hp hpk
  · exact (hnd.2.1.not_mem) hk

lemma lookupKey_append_of_some {K : Type} [DecidableEq K]
    (t1 t2 : List (K × ScopeInfo)) (k : K) (s : ScopeInfo) (h : lookupKey t1 k = some s) :
    lookupKey (t1 ++ t2) k = some s := by
  induction t1 with
  | nil => simp [lookupKey] at h
  | cons p rest ih =>
      obtain ⟨k', s'⟩ := p
      by_cases hk : k' = k
      · subst hk
        simp [lookupKey] at h ⊢
        exact h
      · simp only [List.cons_append, lookupKey, if_neg hk] at h ⊢
        exact ih h

lemma nodup_middle_not_mem {α : Type} (a : α) (l1 l2 : List α)
    (h : (l1 ++ a :: l2).Nodup) : ¬ a ∈ (l1 ++ l2) := by
  intro hmem
  rcases List.mem_append.mp hmem with hm | hm
  · exact (List.nodup_append.mp h).2.2 hm (List.mem_cons_self a l2)
  · exact (List.nodup_cons.mp (List.nodup_append.mp h).2.1).1 hm

lemma termCount_cons {K : Type} [DecidableEq K] (s' : ScopeInfo) (a : CoreAction K)
    (l : List (CoreAction K)) :
    termCount s' (a :: l) =
      (if a = CoreAction.terminateScope s' then 1 else 0) + termCount s' l := by
  simp only [termCount, List.filter_cons]
  by_cases h : a = CoreAction.terminateScope s'
  · simp [h, Nat.add_comm]
  · simp [h]

lemma termCount_append {K : Type} [DecidableEq K] (s' : ScopeInfo)
    (t1 t2 : List (CoreAction K)) :
    termCount s' (t1 ++ t2) = termCount s' t1 + termCount s' t2 := by
  simp [termCount, List.filter_append]

lemma termCount_pair {K : Type} [DecidableEq K] (k : K) (s s' : ScopeInfo) :
    termCount s' [CoreAction.tableErase k, CoreAction.terminateScope s] =
      if s' = s then 1 else 0 := by
  rw [termCount_cons, termCount_cons]
  have hne : ¬ CoreAction.tableErase k = CoreAction.terminateScope (K := K) s' :=
    fun hc => CoreAction.noConfusion hc
  rw [if_neg hne]
  by_cases h : s' = s
  · subst h
    rw [if_pos rfl, if_pos rfl]
    rfl
  · rw [if_neg (fun hc => h (CoreAction.terminateScope.inj hc).symm), if_neg h]
    rfl

/-- Claim C1: on an `ADD` notification for a key not yet tracked under the subscriber
lifetime, `view` creates a fresh child lifetime nested under the subscriber (its id is the
next unused one, so it differs from every lifetime already stored in the table), records
the key-to-child entry in the subscriber's table, and invokes the handler exactly once with
that child lifetime, the key and the value. -/
theorem view_add_untracked_creates_and_calls {K V σ : Type} [DecidableEq K]
    (handler : ScopeInfo → K × V → σ → σ) (vs : ViewState K) (us : σ) (k : K) (v : V)
    (h : lookupKey vs.table k = none)
    (hids : ∀ s, s ∈ tableScopes vs.table → s.id < vs.nextId) :
    viewHandlerStep handler vs us (AddRemove.ADD, k, v) =
      Except.ok
        ({ vs with
            table := vs.table ++ [(k, { id := vs.nextId, parent := vs.subscriber })],
            nextId := vs.nextId + 1 },
         handler { id := vs.nextId, parent := vs.subscriber } (k, v) us) ∧
    ¬ ({ id := vs.nextId, parent := vs.subscriber } : ScopeInfo) ∈ tableScopes vs.table := by
  constructor
  · simp [viewHandlerStep, emplace, h]
  · intro hmem
    exact Nat.lt_irrefl vs.nextId (hids _ hmem)

/-- Witness for C1: a fresh subscription under lifetime 7 receives `ADD` of key 0 with
value 5. -/
theorem view_add_untracked_creates_and_calls_witness :
    lookupKey (initViewState Nat 7).table 0 = none ∧
    (viewHandlerStep recordPair (initViewState Nat 7) ([] : List (ScopeInfo × Nat × Nat))
        (AddRemove.ADD, 0, 5) =
      Except.ok
        ({ subscriber := 7, table := [((0 : Nat), { id := 0, parent := 7 })], nextId := 1,
           trace := [] },
         [({ id := 0, parent := 7 }, 0, 5)]) ∧
     ¬ ({ id := 0, parent := 7 } : ScopeInfo) ∈ tableScopes (initViewState Nat 7).table) :=
  ⟨rfl,
   view_add_untracked_creates_and_calls recordPair _ _ _ _ rfl
     (by intro s hs; simp [tableScopes, initViewState] at hs)⟩

/-- Claim C2: on a `REMOVE` notification, a missing tracked child scope is a fatal
internal-consistency assertion; otherwise the table entry is removed and the tracked child
scope terminated. -/
theorem view_remove_branch_spec {K V σ : Type} [DecidableEq K]
    (handler : ScopeInfo → K × V → σ → σ) (vs : ViewState K) (us : σ) (k : K) (v : V) :
    (lookupKey vs.table k = none →
        viewHandlerStep handler vs us (AddRemove.REMOVE, k, v) =
          Except.error "attempting to remove non-existing lifetime in viewable map by key") ∧
    (∀ s, lookupKey vs.table k = some s →
        viewHandlerStep handler vs us (AddRemove.REMOVE, k, v) =
          Except.ok
            ({ vs with
                table := eraseKey vs.table k,
                trace := vs.trace ++
                  [CoreAction.tableErase k, CoreAction.terminateScope s] }, us)) := by
  constructor
  · intro h
    simp [viewHandlerStep, h]
  · intro s h
    simp [viewHandlerStep, h]

/-- Witness for C2: with key 0 tracked under lifetime 7, `REMOVE` of the untracked key 1
asserts, and `REMOVE` of key 0 erases the entry and terminates its child scope. -/
theorem view_remove_branch_spec_witness :
    (viewHandlerStep recordPair
        { subscriber := 7, table := [((0 : Nat), { id := 3, parent := 7 })], nextId := 4,
          trace := [] } ([] : List (ScopeInfo × Nat × Nat)) (AddRemove.REMOVE, 1, 9) =
      Except.error "attempting to remove non-existing lifetime in viewable map by key") ∧
    (viewHandlerStep recordPair
        { subscriber := 7, table := [((0 : Nat), { id := 3, parent := 7 })], nextId := 4,
          trace := [] } ([] : List (ScopeInfo × Nat × Nat)) (AddRemove.REMOVE, 0, 9) =
      Except.ok
        ({ subscriber := 7, table := [], nextId := 4,
           trace := [CoreAction.tableErase 0,
                     CoreAction.terminateScope { id := 3, parent := 7 }] },
         [])) :=
  ⟨(view_remove_branch_spec recordPair _ _ 1 9).1 rfl,
   (view_remove_branch_spec recordPair _ _ 0 9).2 { id := 3, parent := 7 } rfl⟩

/-- Claim C3: `advise_add_remove` turns an `Add` event into exactly one `ADD` call, an
`Update` event into exactly a `REMOVE` call with the old value followed by an `ADD` call
with the new value, and a `Remove` event into exactly one `REMOVE` call with the old
value. -/
theorem advise_add_remove_decomposition {K V : Type} (k : K) (v o n : V)
    (tr : List (AddRemove × K × V)) :
    adviseAddRemoveStep recordAR (Event.add k v) tr = tr ++ [(AddRemove.ADD, k, v)] ∧
    adviseAddRemoveStep recordAR (Event.update k o n) tr =
      tr ++ [(AddRemove.REMOVE, k, o), (AddRemove.ADD, k, n)] ∧
    adviseAddRemoveStep recordAR (Event.remove k o) tr = tr ++ [(AddRemove.REMOVE, k, o)] := by
  refine ⟨rfl, ?_, rfl⟩
  simp [adviseAddRemoveStep, recordAR]

/-- Claim C4 (defect evidence): on a `Remove` event the source's `get_old_value` visitor
only mentions `e.old_value` without returning it, so no value is produced — the accessor
does not expose the removed old value, contrary to the intended contract. -/
theorem get_old_value_remove_returns_nothing :
    Event.get_old_value (Event.remove (0 : Nat) (5 : Nat)) = none ∧
    ¬ Event.get_old_value (Event.remove (0 : Nat) (5 : Nat)) = some 5 :=
  ⟨rfl, by decide⟩

/-- Claim C5 (defect evidence): a second `ADD` for a key already tracked under the
subscriber lifetime is not a fatal error in the source: the `count(key) == 0` guard makes
the whole delivery succeed, with the handler called only once (for the first `ADD`) and the
bookkeeping left unchanged, instead of aborting loudly. -/
theorem duplicate_add_not_fatal :
    processNotes recordPair (initViewState Nat 7) ([] : List (ScopeInfo × Nat × Nat))
        [(AddRemove.ADD, 0, 10), (AddRemove.ADD, 0, 20)] =
      Except.ok
        ({ subscriber := 7, table := [(0, { id := 0, parent := 7 })], nextId := 1,
           trace := [] },
         [({ id := 0, parent := 7 }, 0, 10)]) := by
  rfl

/-- Claim C8: the unpacked `view` overload is a thin adapter over the pair-shaped one — on
every notification it performs exactly the table updates and lifetime effects of the
contract, invoking its handler with the same lifetime, key and value, merely unpacking the
pair. -/
theorem view_unpacked_is_thin_adapter {K V σ : Type} [DecidableEq K]
    (handler : ScopeInfo → K → V → σ → σ) (vs : ViewState K) (us : σ) (n : Note K V) :
    viewUnpackedStep handler vs us n = viewUnpackedDirect handler vs us n := by
  obtain ⟨kind, k, v⟩ := n
  cases kind <;> rfl

/-- Claim C9: in the `REMOVE` branch of `view`, the table entry is erased strictly before
the child scope's terminate runs — the effect trace records the erase first, and the table
reached by the terminate effect no longer contains the key. -/
theorem remove_erases_before_terminate {K V σ : Type} [DecidableEq K]
    (handler : ScopeInfo → K × V → σ → σ) (vs : ViewState K) (us : σ) (k : K) (v : V)
    (s : ScopeInfo) (h : lookupKey vs.table k = some s)
    (hnd : (vs.table.map Prod.fst).Nodup) :
    ∃ vs', viewHandlerStep handler vs us (AddRemove.REMOVE, k, v) = Except.ok (vs', us) ∧
      vs'.trace = vs.trace ++ [CoreAction.tableErase k, CoreAction.terminateScope s] ∧
      lookupKey vs'.table k = none := by
  refine ⟨{ vs with
             table := eraseKey vs.table k,
             trace := vs.trace ++
               [CoreAction.tableErase k, CoreAction.terminateScope s] }, ?_, rfl, ?_⟩
  · simp [viewHandlerStep, h]
  · exact lookupKey_eraseKey_self vs.table k s h hnd

/-- Witness for C9: removing tracked key 0 erases its entry before terminating its child
scope. -/
theorem remove_erases_before_terminate_witness :
    lookupKey ([((0 : Nat), { id := 3, parent := 7 }), (1, { id := 4, parent := 7 })] :
        List (Nat × ScopeInfo)) 0 = some { id := 3, parent := 7 } ∧
    (([((0 : Nat), { id := 3, parent := 7 }), (1, { id := 4, parent := 7 })] :
        List (Nat × ScopeInfo)).map Prod.fst).Nodup ∧
    ∃ vs', viewHandlerStep recordPair
        { subscriber := 7,
          table := [((0 : Nat), { id := 3, parent := 7 }), (1, { id := 4, parent := 7 })],
          nextId := 5, trace := [] } ([] : List (ScopeInfo × Nat × Nat))
        (AddRemove.REMOVE, 0, 9) = Except.ok (vs', []) ∧
      vs'.trace = [CoreAction.tableErase 0,
                   CoreAction.terminateScope { id := 3, parent := 7 }] ∧
      lookupKey vs'.table 0 = none :=
  ⟨rfl, by decide,
   remove_erases_before_terminate recordPair _ _ _ 9 _ rfl (by decide)⟩

lemma processNotes_cons_ok {K V σ : Type} [DecidableEq K]
    (handler : ScopeInfo → K × V → σ → σ) (vs : ViewState K) (us : σ) (n : Note K V)
    (rest : List (Note K V)) (vs1 : ViewState K) (us1 : σ)
    (h : viewHandlerStep handler vs us n = Except.ok (vs1, us1)) :
    processNotes handler vs us (n :: rest) = processNotes handler vs1 us1 rest := by
  simp [processNotes, h]

lemma Inv_init {K V : Type} [DecidableEq K] (L : Nat) :
    Inv (V := V) (initViewState K L) [] [] := by
  refine { pres_nodup := List.nodup_nil, keys_nodup := by simp [initViewState],
           keys_iff := ?_, tscopes_nodup := by simp [initViewState, tableScopes],
           tscopes_sub := ?_, hscopes_nodup := by simp [handlerScopes],
           hscopes_lt := ?_, hscopes_parent := ?_, term_spec := ?_ }
  · intro k
    simp [initViewState, lookupKey]
  · intro s hs
    simp [initViewState, tableScopes] at hs
  · intro s hs
    simp [handlerScopes] at hs
  · intro s hs
    simp [handlerScopes] at hs
  · intro s
    simp [initViewState, termCount, handlerScopes]

/-- The run of a `view` subscription on a notification sequence respecting the per-key
state machine: it succeeds, preserves the invariant against the evolved present-key set,
keeps the subscriber lifetime, and the recorded handler calls extend by exactly the
expected one-call-per-`ADD` list with sequentially numbered child lifetimes. -/
lemma processNotes_inv {K V : Type} [DecidableEq K] (notes : List (Note K V)) :
    ∀ (vs : ViewState K) (calls : List (ScopeInfo × K × V)) (present : List K),
      wfNotes present notes = true → Inv vs calls present →
      ∃ vs' calls',
        processNotes recordPair vs calls notes = Except.ok (vs', calls') ∧
        Inv vs' calls' (presentAfter present notes) ∧
        vs'.subscriber = vs.subscriber ∧
        calls' = calls ++ expectedCalls vs.subscriber vs.nextId notes := by
  induction notes with
  | nil =>
      intro vs calls present _ hinv
      exact ⟨vs, calls, rfl, hinv, rfl, by simp [expectedCalls]⟩
  | cons nkv rest ih =>
      intro vs calls present hwf hinv
      obtain ⟨kind, k, v⟩ := nkv
      cases kind with
      | ADD =>
          simp only [wfNotes, Bool.and_eq_true, Bool.not_eq_true',
            decide_eq_false_iff_not] at hwf
          obtain ⟨hk_not, hwf'⟩ := hwf
          have hlk : lookupKey vs.table k = none := by
            rw [lookupKey_eq_none_iff]
            intro hmem
            exact hk_not ((hinv.keys_iff k).mp ((lookupKey_isSome_iff _ _).mpr hmem))
          have hknotmem : ¬ k ∈ vs.table.map Prod.fst := (lookupKey_eq_none_iff _ _).mp hlk
          have hchild_not_h :
              ¬ (⟨vs.nextId, vs.subscriber⟩ : ScopeInfo) ∈ handlerScopes calls :=
            fun hm => Nat.lt_irrefl _ (hinv.hscopes_lt _ hm)
          have hchild_not_t :
              ¬ (⟨vs.nextId, vs.subscriber⟩ : ScopeInfo) ∈ tableScopes vs.table :=
            fun hm => Nat.lt_irrefl _ (hinv.hscopes_lt _ (hinv.tscopes_sub _ hm))
          have hTS : tableScopes (vs.table ++ [(k, ⟨vs.nextId, vs.subscriber⟩)]) =
              tableScopes vs.table ++ [⟨vs.nextId, vs.subscriber⟩] := by
            simp [tableScopes]
          have hHS : handlerScopes (calls ++ [(⟨vs.nextId, vs.subscriber⟩, k, v)]) =
              handlerScopes calls ++ [⟨vs.nextId, vs.subscriber⟩] := by
            simp [handlerScopes]
          have hinv1 : Inv (ViewState.mk vs.subscriber
              (vs.table ++ [(k, ⟨vs.nextId, vs.subscriber⟩)]) (vs.nextId + 1) vs.trace)
              (calls ++ [(⟨vs.nextId, vs.subscriber⟩, k, v)]) (k :: present) := by
            refine { pres_nodup := List.nodup_cons.mpr ⟨hk_not, hinv.pres_nodup⟩,
                     keys_nodup := ?_, keys_iff := ?_, tscopes_nodup := ?_,
                     tscopes_sub := ?_, hscopes_nodup := ?_, hscopes_lt := ?_,
                     hscopes_parent := ?_, term_spec := ?_ }
            · show ((vs.table ++
                  [(k, ({ id := vs.nextId, parent := vs.subscriber } : ScopeInfo))]).map
                  Prod.fst).Nodup
              rw [List.map_append]
              refine List.Nodup.append hinv.keys_nodup (by simp) ?_
              intro a ha hb
              simp only [List.map_cons, List.map_nil, List.mem_singleton] at hb
              subst hb
              exact hknotmem ha
            · show ∀ k', (lookupKey
                  (vs.table ++ [(k, { id := vs.nextId, parent := vs.subscriber })])
                  k').isSome = true ↔ k' ∈ k :: present
              intro k'
              by_cases hk' : k' = k
              · subst hk'
                rw [lookupKey_append_of_none _ _ _ hlk, lookupKey_single_self]
                simp
              · have heq : lookupKey
                    (vs.table ++ [(k, { id := vs.nextId, parent := vs.subscriber })]) k' =
                    lookupKey vs.table k' := by
                  cases hlt : lookupKey vs.table k' with
                  | some s2 =>
                      rw [lookupKey_append_of_some vs.table
                        [(k, { id := vs.nextId, parent := vs.subscriber })] k' s2 hlt]
                  | none =>
                      rw [lookupKey_append_of_none _ _ _ hlt,
                        lookupKey_single_ne _ _ _ hk']
                rw [heq, hinv.keys_iff k']
                constructor
                · exact fun hm => List.mem_cons_of_mem _ hm
                · intro hm
                  rcases List.mem_cons.mp hm with hm | hm
                  · exact absurd hm hk'
                  · exact hm
            · show (tableScopes (vs.table ++ [(k, ⟨vs.nextId, vs.subscriber⟩)])).Nodup
              rw [hTS]
              refine List.Nodup.append hinv.tscopes_nodup (by simp) ?_
              intro a ha hb
              simp only [List.mem_singleton] at hb
              subst hb
              exact hchild_not_t ha
            · show ∀ s, s ∈ tableScopes (vs.table ++ [(k, ⟨vs.nextId, vs.subscriber⟩)]) →
                  s ∈ handlerScopes (calls ++ [(⟨vs.nextId, vs.subscriber⟩, k, v)])
              intro s hs
              rw [hTS] at hs
              rw [hHS]
              rcases List.mem_append.mp hs with hm | hm
              · exact List.mem_append.mpr (Or.inl (hinv.tscopes_sub _ hm))
              · exact List.mem_append.mpr (Or.inr hm)
            · show (handlerScopes (calls ++ [(⟨vs.nextId, vs.subscriber⟩, k, v)])).Nodup
              rw [hHS]
              refine List.Nodup.append hinv.hscopes_nodup (by simp) ?_
              intro a ha hb
              simp only [List.mem_singleton] at hb
              subst hb
              exact hchild_not_h ha
            · show ∀ s, s ∈ handlerScopes (calls ++ [(⟨vs.nextId, vs.subscriber⟩, k, v)]) →
                  s.id < vs.nextId + 1
              intro s hs
              rw [hHS] at hs
              rcases List.mem_append.mp hs with hm | hm
              · exact Nat.lt_succ_of_lt (hinv.hscopes_lt _ hm)
              · simp only [List.mem_singleton] at hm
                subst hm
                exact Nat.lt_succ_self _
            · show ∀ s, s ∈ handlerScopes (calls ++ [(⟨vs.nextId, vs.subscriber⟩, k, v)]) →
                  s.parent = vs.subscriber
              intro s hs
              rw [hHS] at hs
              rcases List.mem_append.mp hs with hm | hm
              · exact hinv.hscopes_parent _ hm
              · simp only [List.mem_singleton] at hm
                subst hm
                rfl
            · show ∀ s, termCount s vs.trace =
                  if s ∈ handlerScopes (calls ++ [(⟨vs.nextId, vs.subscriber⟩, k, v)]) ∧
                     ¬ s ∈ tableScopes (vs.table ++ [(k, ⟨vs.nextId, vs.subscriber⟩)])
                  then 1 else 0
              intro s
              rw [hinv.term_spec s, hHS, hTS]
              by_cases hs : s = ⟨vs.nextId, vs.subscriber⟩
              · subst hs
                rw [if_neg (fun hc => hchild_not_h hc.1),
                  if_neg (fun hc =>
                    hc.2 (List.mem_append.mpr (Or.inr (List.mem_singleton.mpr rfl))))]
              · have h1 : s ∈ handlerScopes calls ++ [⟨vs.nextId, vs.subscriber⟩] ↔
                    s ∈ handlerScopes calls := by
                  simp [hs]
                have h2 : s ∈ tableScopes vs.table ++ [⟨vs.nextId, vs.subscriber⟩] ↔
                    s ∈ tableScopes vs.table := by
                  simp [hs]
                exact if_congr (and_congr h1.symm (not_congr h2.symm)) rfl rfl
          obtain ⟨vs', calls', hrun, hinv', hsub, hcalls⟩ := ih _ _ _ hwf' hinv1
          have hstep : viewHandlerStep recordPair vs calls (AddRemove.ADD, k, v) =
              Except.ok (ViewState.mk vs.subscriber
                  (vs.table ++ [(k, ⟨vs.nextId, vs.subscriber⟩)]) (vs.nextId + 1) vs.trace,
                calls ++ [(⟨vs.nextId, vs.subscriber⟩, k, v)]) := by
            simp [viewHandlerStep, emplace, hlk, recordPair]
          refine ⟨vs', calls', ?_, hinv', hsub, ?_⟩
          · rw [processNotes_cons_ok recordPair _ _ _ _ _ _ hstep]
            exact hrun
          · rw [hcalls, List.append_assoc]
            rfl
      | REMOVE =>
          simp only [wfNotes, Bool.and_eq_true, decide_eq_true_eq] at hwf
          obtain ⟨hk_in, hwf'⟩ := hwf
          have hsome : (lookupKey vs.table k).isSome = true := (hinv.keys_iff k).mpr hk_in
          obtain ⟨s, hlk⟩ := Option.isSome_iff_exists.mp hsome
          obtain ⟨t1, t2, ht, hne, he⟩ := eraseKey_decomp vs.table k s hlk
          have hTSdecomp : tableScopes vs.table = tableScopes t1 ++ s :: tableScopes t2 := by
            rw [ht]
            simp [tableScopes]
          have hTSerase : tableScopes (eraseKey vs.table k) =
              tableScopes t1 ++ tableScopes t2 := by
            rw [he]
            simp [tableScopes]
          have hs_in_ts : s ∈ tableScopes vs.table := by
            rw [hTSdecomp]
            exact List.mem_append.mpr (Or.inr (List.mem_cons_self _ _))
          have hs_not_erased : ¬ s ∈ tableScopes (eraseKey vs.table k) := by
            rw [hTSerase]
            have hnd := hinv.tscopes_nodup
            rw [hTSdecomp] at hnd
            exact nodup_middle_not_mem _ _ _ hnd
          have hmem_erase_iff : ∀ s2, ¬ s2 = s →
              (s2 ∈ tableScopes (eraseKey vs.table k) ↔ s2 ∈ tableScopes vs.table) := by
            intro s2 hs2
            rw [hTSerase, hTSdecomp]
            simp [List.mem_append, hs2]
          have hsubl : List.Sublist (eraseKey vs.table k) vs.table := by
            rw [he, ht]
            exact List.Sublist.append_left (List.sublist_cons_self _ _) t1
          have hinv1 : Inv (ViewState.mk vs.subscriber (eraseKey vs.table k) vs.nextId
              (vs.trace ++ [CoreAction.tableErase k, CoreAction.terminateScope s]))
              calls (present.erase k) := by
            refine { pres_nodup := hinv.pres_nodup.erase k, keys_nodup := ?_,
                     keys_iff := ?_, tscopes_nodup := ?_, tscopes_sub := ?_,
                     hscopes_nodup := hinv.hscopes_nodup, hscopes_lt := ?_,
                     hscopes_parent := ?_, term_spec := ?_ }
            · show ((eraseKey vs.table k).map Prod.fst).Nodup
              exact hinv.keys_nodup.sublist (hsubl.map Prod.fst)
            · show ∀ k', (lookupKey (eraseKey vs.table k) k').isSome = true ↔
                  k' ∈ present.erase k
              intro k'
              by_cases hk' : k' = k
              · subst hk'
                rw [lookupKey_eraseKey_self _ _ _ hlk hinv.keys_nodup]
                simp [List.Nodup.mem_erase_iff hinv.pres_nodup]
              · rw [lookupKey_eraseKey_ne _ _ _ hk', hinv.keys_iff k',
                  List.Nodup.mem_erase_iff hinv.pres_nodup]
                constructor
                · exact fun hm => ⟨hk', hm⟩
                · exact fun hm => hm.2
            · show (tableScopes (eraseKey vs.table k)).Nodup
              exact hinv.tscopes_nodup.sublist (hsubl.map Prod.snd)
            · show ∀ s2, s2 ∈ tableScopes (eraseKey vs.table k) → s2 ∈ handlerScopes calls
              intro s2 hs2
              refine hinv.tscopes_sub _ ?_
              rw [hTSerase] at hs2
              rw [hTSdecomp]
              rcases List.mem_append.mp hs2 with hm | hm
              · exact List.mem_append.mpr (Or.inl hm)
              · exact List.mem_append.mpr (Or.inr (List.mem_cons_of_mem _ hm))
            · exact hinv.hscopes_lt
            · exact hinv.hscopes_parent
            · show ∀ s2, termCount s2
                  (vs.trace ++ [CoreAction.tableErase k, CoreAction.terminateScope s]) =
                  if s2 ∈ handlerScopes calls ∧ ¬ s2 ∈ tableScopes (eraseKey vs.table k)
                  then 1 else 0
              intro s2
              rw [termCount_append, termCount_pair, hinv.term_spec s2]
              by_cases hss : s2 = s
              · subst hss
                rw [if_neg (fun hc => hc.2 hs_in_ts), if_pos (rfl : s2 = s2),
                  if_pos (And.intro (hinv.tscopes_sub _ hs_in_ts) hs_not_erased)]
              · rw [if_neg hss]
                exact if_congr (and_congr Iff.rfl
                  (not_congr (hmem_erase_iff s2 hss).symm)) rfl rfl
          obtain ⟨vs', calls', hrun, hinv', hsub, hcalls⟩ := ih _ _ _ hwf' hinv1
          have hstep : viewHandlerStep recordPair vs calls (AddRemove.REMOVE, k, v) =
              Except.ok (ViewState.mk vs.subscriber (eraseKey vs.table k) vs.nextId
                  (vs.trace ++ [CoreAction.tableErase k, CoreAction.terminateScope s]),
                calls) := by
            simp [viewHandlerStep, hlk]
          refine ⟨vs', calls', ?_, hinv', hsub, ?_⟩
          · rw [processNotes_cons_ok recordPair _ _ _ _ _ _ hstep]
            exact hrun
          · rw [hcalls]
            rfl

/-- Claim C10: an `ADD` for a key already tracked under the subscriber lifetime leaves the
state and the handler untouched — the `count(key) == 0` guard skips the branch entirely —
and the `ADD` branch can never take the duplicate-registration assertion's error path. -/
theorem add_tracked_is_silent_noop {K V σ : Type} [DecidableEq K]
    (handler : ScopeInfo → K × V → σ → σ) (vs : ViewState K) (us : σ) (k : K) (v : V) :
    (∀ s, lookupKey vs.table k = some s →
        viewHandlerStep handler vs us (AddRemove.ADD, k, v) = Except.ok (vs, us)) ∧
    ∃ r, viewHandlerStep handler vs us (AddRemove.ADD, k, v) = Except.ok r := by
  constructor
  · intro s h
    simp [viewHandlerStep, h]
  · cases hl : lookupKey vs.table k with
    | some s => exact ⟨(vs, us), by simp [viewHandlerStep, hl]⟩
    | none =>
        exact ⟨({ vs with
                   table := vs.table ++ [(k, { id := vs.nextId, parent := vs.subscriber })],
                   nextId := vs.nextId + 1 },
                handler { id := vs.nextId, parent := vs.subscriber } (k, v) us),
               by simp [viewHandlerStep, emplace, hl]⟩

/-- Witness for C10: a duplicate `ADD` of the tracked key 0 returns the state and the
recorded calls unchanged. -/
theorem add_tracked_is_silent_noop_witness :
    lookupKey ([((0 : Nat), { id := 2, parent := 7 })] : List (Nat × ScopeInfo)) 0 =
      some { id := 2, parent := 7 } ∧
    viewHandlerStep recordPair
        { subscriber := 7, table := [((0 : Nat), { id := 2, parent := 7 })], nextId := 3,
          trace := [] } ([] : List (ScopeInfo × Nat × Nat)) (AddRemove.ADD, 0, 42) =
      Except.ok
        ({ subscriber := 7, table := [((0 : Nat), { id := 2, parent := 7 })], nextId := 3,
           trace := [] }, []) :=
  ⟨rfl, (add_tracked_is_silent_noop recordPair _ _ _ _).1 { id := 2, parent := 7 } rfl⟩

/-- Claim C6: for every notification sequence respecting the per-key state machine, a
`view` subscription succeeds, its handler is invoked exactly once per `ADD` — in order,
with that `ADD`'s key and value and a freshly created, never-reused child lifetime nested
under the subscriber — and each such child lifetime is terminated exactly once, exactly
when its key's `REMOVE` fires (it is terminated iff it has left the table, and never
twice); instantiating the theorem at any prefix of the sequence shows the termination
happens at the `REMOVE` and never before it. -/
theorem view_per_key_lifecycle {K V : Type} [DecidableEq K] (L : Nat)
    (notes : List (Note K V)) (hwf : wfNotes [] notes = true) :
    ∃ vs calls,
      processNotes recordPair (initViewState K L) [] notes = Except.ok (vs, calls) ∧
      calls = expectedCalls L 0 notes ∧
      (handlerScopes calls).Nodup ∧
      (∀ s, s ∈ handlerScopes calls → s.parent = L) ∧
      (∀ s, termCount s vs.trace =
          if s ∈ handlerScopes calls ∧ ¬ s ∈ tableScopes vs.table then 1 else 0) ∧
      (∀ s, termCount s vs.trace ≤ 1) := by
  obtain ⟨vs', calls', hrun, hinv', hsub, hcalls⟩ :=
    processNotes_inv notes (initViewState K L) [] [] hwf (Inv_init L)
  refine ⟨vs', calls', hrun, hcalls, hinv'.hscopes_nodup, ?_, hinv'.term_spec, ?_⟩
  · intro s hs
    exact (hinv'.hscopes_parent s hs).trans hsub
  · intro s
    rw [hinv'.term_spec s]
    split
    · exact Nat.le_refl 1
    · exact Nat.zero_le 1

/-- Witness for C6: the sequence Add 0, Add 1, Remove 0, Add 0 under subscriber
lifetime 7. -/
theorem view_per_key_lifecycle_witness :
    wfNotes [] [(AddRemove.ADD, (0 : Nat), (10 : Nat)), (AddRemove.ADD, 1, 11),
        (AddRemove.REMOVE, 0, 10), (AddRemove.ADD, 0, 12)] = true ∧
    ∃ vs calls,
      processNotes recordPair (initViewState Nat 7) []
          [(AddRemove.ADD, (0 : Nat), (10 : Nat)), (AddRemove.ADD, 1, 11),
           (AddRemove.REMOVE, 0, 10), (AddRemove.ADD, 0, 12)] = Except.ok (vs, calls) ∧
      calls = expectedCalls 7 0 [(AddRemove.ADD, (0 : Nat), (10 : Nat)),
          (AddRemove.ADD, 1, 11), (AddRemove.REMOVE, 0, 10), (AddRemove.ADD, 0, 12)] ∧
      (handlerScopes calls).Nodup ∧
      (∀ s, s ∈ handlerScopes calls → s.parent = 7) ∧
      (∀ s, termCount s vs.trace =
          if s ∈ handlerScopes calls ∧ ¬ s ∈ tableScopes vs.table then 1 else 0) ∧
      (∀ s, termCount s vs.trace ≤ 1) :=
  ⟨rfl, view_per_key_lifecycle 7 _ rfl⟩

/-- Claim C7: after any notification sequence respecting the per-key state machine, the
subscriber's child-scope table holds a key iff that key is currently present according to
the sequence, and the table never holds two entries for the same key. -/
theorem view_table_tracks_presence {K V : Type} [DecidableEq K] (L : Nat)
    (notes : List (Note K V)) (hwf : wfNotes [] notes = true) :
    ∃ vs calls,
      processNotes recordPair (initViewState K L) [] notes = Except.ok (vs, calls) ∧
      (vs.table.map Prod.fst).Nodup ∧
      (∀ k, (lookupKey vs.table k).isSome = true ↔ k ∈ presentAfter [] notes) := by
  obtain ⟨vs', calls', hrun, hinv', _, _⟩ :=
    processNotes_inv notes (initViewState K L) [] [] hwf (Inv_init L)
  exact ⟨vs', calls', hrun, hinv'.keys_nodup, hinv'.keys_iff⟩

/-- Witness for C7: the sequence Add 3, Remove 3, Add 4 under subscriber lifetime 9. -/
theorem view_table_tracks_presence_witness :
    wfNotes [] [(AddRemove.ADD, (3 : Nat), (1 : Nat)), (AddRemove.REMOVE, 3, 1),
        (AddRemove.ADD, 4, 2)] = true ∧
    ∃ vs calls,
      processNotes recordPair (initViewState Nat 9) []
          [(AddRemove.ADD, (3 : Nat), (1 : Nat)), (AddRemove.REMOVE, 3, 1),
           (AddRemove.ADD, 4, 2)] = Except.ok (vs, calls) ∧
      (vs.table.map Prod.fst).Nodup ∧
      (∀ k, (lookupKey vs.table k).isSome = true ↔
          k ∈ presentAfter [] [(AddRemove.ADD, (3 : Nat), (1 : Nat)),
            (AddRemove.REMOVE, 3, 1), (AddRemove.ADD, 4, 2)]) :=
  ⟨rfl, view_table_tracks_presence 9 _ rfl⟩

end IViewableMap



